import Mathlib

/-!
Verification of the filterfs package: `fs.FS` wrappers that hide a set of
paths (and everything beneath hidden directories) from consumers.

The development shallowly embeds the two implementations of the package:
the static path-set wrapper (`excludePathsFS` / `excludePathsDir` from
filter.go) and the predicate-based wrapper (`excludeFnFS` / `excludeFnDir`).
The Go standard-library path helpers the package calls
(`path/filepath.Clean`, `Dir`, `Join` on Unix) are modelled from their
documented lexical rules, on character lists so that they are fully
executable and amenable to induction.

Underlying filesystems are abstract: an open function, a stat function, a
listing-capability flag on handles, and a per-call listing function.  Go's
`(value, error)` returns become `Except` (or a pair with `Option` error for
`ReadDir`, where Go can return entries alongside an error); Go panics in the
constructors become `Except.error` carrying the panic message.
-/

namespace Filterfs

/-- Model of Go error values as used by this package: the sentinel errors
`fs.ErrNotExist` and `fs.ErrInvalid`, arbitrary other underlying errors
(indexed by a code), and `fs.PathError` wrapping an operation, a path and a
cause. -/
inductive GoError where
  | errNotExist : GoError
  | errInvalid : GoError
  | other : Nat → GoError
  | pathError : String → String → GoError → GoError
deriving DecidableEq

/-- `errors.Is(e, fs.ErrNotExist)`: true for the sentinel itself and for any
`fs.PathError` whose cause is, recursively. -/
def GoError.isNotExist : GoError → Bool
  | .errNotExist => true
  | .pathError _ _ e => e.isNotExist
  | _ => false

/-- The part of `fs.FileInfo` the wrapper consults. -/
structure FileInfo where
  isDir : Bool
deriving DecidableEq

/-- The part of `fs.DirEntry` the wrapper consults. -/
structure DirEntry where
  name : String
  isDir : Bool
deriving DecidableEq

/-- Split a character list on `'/'`.  Always returns a nonempty list of
components (empty components for leading, doubled or trailing slashes). -/
def splitSlash : List Char → List (List Char)
  | [] => [[]]
  | c :: rest =>
    if c = '/' then [] :: splitSlash rest
    else
      match splitSlash rest with
      | [] => [[c]]
      | r :: rs => (c :: r) :: rs

/-- Join components with `'/'`; inverse of `splitSlash`. -/
def joinSlash : List (List Char) → List Char
  | [] => []
  | [c] => c
  | c :: rest => c ++ '/' :: joinSlash rest

/-- The component pass of Go `path/filepath.Clean`, per its documented
rules: drop empty components (rule 1) and `.` components (rule 2), and
resolve `..` against the stack of output components (`acc`, kept reversed):
an inner `..` removes the preceding non-`..` component (rule 3), a leading
`..` of a rooted path is dropped (rule 4), and otherwise `..` is kept. -/
def cleanComponents (rooted : Bool) : List (List Char) → List (List Char) → List (List Char)
  | acc, [] => acc.reverse
  | acc, c :: rest =>
    if c = [] ∨ c = ['.'] then cleanComponents rooted acc rest
    else if c = ['.', '.'] then
      match acc with
      | [] =>
        if rooted then cleanComponents rooted [] rest
        else cleanComponents rooted [['.', '.']] rest
      | a :: as =>
        if a = ['.', '.'] then cleanComponents rooted (c :: a :: as) rest
        else cleanComponents rooted as rest
    else cleanComponents rooted (c :: acc) rest

/-- Model of Go `path/filepath.Clean` (Unix) on character lists: empty input
becomes `"."`; otherwise the components are cleaned and rejoined, keeping a
leading slash for rooted paths, and an empty result becomes `"/"` (rooted)
or `"."`. -/
def cleanList (s : List Char) : List Char :=
  if s = [] then ['.']
  else
    let rooted := decide (s.head? = some '/')
    let comps := cleanComponents rooted [] (splitSlash s)
    if comps = [] then (if rooted then ['/'] else ['.'])
    else if rooted then '/' :: joinSlash comps else joinSlash comps

/-- Go `path/filepath.Clean` on strings. -/
def filepathClean (s : String) : String := ⟨cleanList s.data⟩

/-- Go `path/filepath.Dir` (Unix): keep everything up to and including the
final slash (nothing, when there is no slash), then `Clean` the result. -/
def dirList (s : List Char) : List Char :=
  cleanList ((s.reverse.dropWhile (fun c => c ≠ '/')).reverse)

/-- Go `path/filepath.Dir` on strings. -/
def filepathDir (s : String) : String := ⟨dirList s.data⟩

/-- Go `path/filepath.Join` on two elements: empty elements before the first
nonempty one are dropped, the rest are joined with `'/'` and cleaned; all
elements empty yields `""`. -/
def filepathJoin (a b : String) : String :=
  if a ≠ "" then filepathClean (a ++ "/" ++ b)
  else if b ≠ "" then filepathClean b
  else ""

/-- The loop of `pathPrefixes` from filter.go: repeatedly replace the path
by its `Dir` and record it, stopping after recording a `"."` or `"/"`.
`fuel` bounds the iteration count; since `Dir` strictly shortens any cleaned
path that is not already terminal, `length + 1` fuel always suffices. -/
def prefixesLoop : Nat → List Char → List (List Char)
  | 0, _ => []
  | fuel + 1, path =>
    let d := dirList path
    if d = ['.'] ∨ d = ['/'] then [d]
    else d :: prefixesLoop fuel d

/-- `pathPrefixes` from filter.go, on character lists: the cleaned path
followed by each successive parent, ending at `"."` or `"/"`. -/
def pathPrefixesList (s : List Char) : List (List Char) :=
  let c := cleanList s
  c :: prefixesLoop (c.length + 1) c

/-- `pathPrefixes(path)` from filter.go (identical in both source files). -/
def pathPrefixes (s : String) : List String :=
  (pathPrefixesList s.data).map (fun l => ⟨l⟩)

/-- Result of the wrapper's `Open`: either the underlying handle returned
unchanged, or a directory decorator remembering its own logical path around
the underlying handle. -/
inductive WFile (F : Type) where
  | plain : F → WFile F
  | dir : String → F → WFile F
deriving DecidableEq

/-- The underlying handle inside a wrapper-produced handle. -/
def WFile.raw {F : Type} : WFile F → F
  | .plain f => f
  | .dir _ f => f

/-- `excludePathsFS.Open` from filter.go: reject with a not-exist
`fs.PathError` when any prefix of the name is hidden; otherwise delegate to
the underlying open, stat the handle, and decorate directory handles that
expose listing. -/
def excludePathsFS.Open {F : Type} (hidden : String → Bool)
    (uOpen : String → Except GoError F) (uStat : F → Except GoError FileInfo)
    (uRDF : F → Bool) (name : String) : Except GoError (WFile F) :=
  if (pathPrefixes name).any hidden then
    .error (.pathError "open" name .errNotExist)
  else
    match uOpen name with
    | .error e => .error e
    | .ok file =>
      match uStat file with
      | .error e => .error e
      | .ok fi =>
        if fi.isDir && uRDF file then .ok (.dir name file)
        else .ok (.plain file)

/-- `excludeFnFS.Open` from the predicate-based file: identical control
flow, with the hide predicate in place of the hidden-set lookup. -/
def excludeFnFS.Open {F : Type} (hide : String → Bool)
    (uOpen : String → Except GoError F) (uStat : F → Except GoError FileInfo)
    (uRDF : F → Bool) (name : String) : Except GoError (WFile F) :=
  if (pathPrefixes name).any hide then
    .error (.pathError "open" name .errNotExist)
  else
    match uOpen name with
    | .error e => .error e
    | .ok file =>
      match uStat file with
      | .error e => .error e
      | .ok fi =>
        if fi.isDir && uRDF file then .ok (.dir name file)
        else .ok (.plain file)

/-- The in-place compaction loop of both `ReadDir`s, rendered functionally:
entries for which `keep` is false are skipped, the rest are retained in
order (the Go code writes kept entries back into the slice and truncates;
`acc` accumulates them reversed). -/
def compactLoop (keep : DirEntry → Bool) (acc : List DirEntry) : List DirEntry → List DirEntry
  | [] => acc.reverse
  | de :: des =>
    if keep de then compactLoop keep (de :: acc) des
    else compactLoop keep acc des

/-- `excludePathsDir.ReadDir` from filter.go: delegate to the underlying
handle's listing; on error return a nil slice and the error unchanged;
otherwise drop entries whose full path (`filepath.Join` of the remembered
directory path and the entry name) is hidden. -/
def excludePathsDir.ReadDir (hidden : String → Bool) (path : String)
    (uReadDir : Int → List DirEntry × Option GoError) (n : Int) :
    List DirEntry × Option GoError :=
  match uReadDir n with
  | (_, some e) => ([], some e)
  | (des, none) =>
    (compactLoop (fun de => !(hidden (filepathJoin path de.name))) [] des, none)

/-- `excludeFnDir.ReadDir` from the predicate-based file: as above, but the
full path is `filepath.Clean(path + "/" + name)`. -/
def excludeFnDir.ReadDir (hide : String → Bool) (path : String)
    (uReadDir : Int → List DirEntry × Option GoError) (n : Int) :
    List DirEntry × Option GoError :=
  match uReadDir n with
  | (_, some e) => ([], some e)
  | (des, none) =>
    (compactLoop (fun de => !(hide (filepathClean (path ++ "/" ++ de.name)))) [] des, none)

/-- The hidden-set construction loop of `ExcludePaths`: insert each path,
panicking (modelled as `Except.error` with the panic message) on `"."`. -/
def buildHidden (acc : List String) : List String → Except String (List String)
  | [] => .ok acc
  | p :: rest =>
    if p = "." then .error "ExcludePaths: cannot hide path \".\""
    else buildHidden (p :: acc) rest

/-- `ExcludePaths` from filter.go: build the hidden set (panicking on `"."`)
and yield the wrapper, represented by its hidden-membership predicate; the
underlying filesystem is supplied at the call sites of `Open`/`ReadDir`. -/
def ExcludePaths (hide : List String) : Except String (String → Bool) :=
  match buildHidden [] hide with
  | .error msg => .error msg
  | .ok hiddenL => .ok (fun s => hiddenL.contains s)

/-- `ExcludeFn` from the predicate-based file: panic when `hide "."`, else
yield the wrapper, represented by its predicate. -/
def ExcludeFn (hide : String → Bool) : Except String (String → Bool) :=
  if hide "." then .error "ExcludeFn: cannot hide path \".\""
  else .ok hide

/-- `ExcludePaths` from the predicate-based file: build the hidden set
(panicking on `"."`) and pass its membership predicate to `ExcludeFn`. -/
def ExcludePathsFn (hide : List String) : Except String (String → Bool) :=
  match buildHidden [] hide with
  | .error msg => .error msg
  | .ok hiddenL => ExcludeFn (fun s => hiddenL.contains s)

/-- Stat on a wrapper-produced handle: the decorator promotes the embedded
handle's `Stat`, and a plain handle is the underlying handle itself. -/
def WFile.statW {F : Type} (uStat : F → Except GoError FileInfo) (w : WFile F) :
    Except GoError FileInfo :=
  uStat w.raw

/-- Listing capability of a wrapper-produced handle: the directory decorator
implements `ReadDir` itself; a plain handle has the underlying capability. -/
def WFile.isRDFW {F : Type} (uRDF : F → Bool) : WFile F → Bool
  | .plain f => uRDF f
  | .dir _ _ => true

/-- Collapse a doubly wrapped handle to its behavioural content: the raw
underlying handle, decorated iff the outer layer decorated it. -/
def WFile.flatten {F : Type} : WFile (WFile F) → WFile F
  | .plain w => w
  | .dir p w => .dir p w.raw

/-- A valid path component: nonempty, slash-free and not `"."` or `".."`;
the per-component condition of `io/fs.ValidPath`. -/
def validComp (c : List Char) : Bool :=
  (decide (c ≠ [])) && (decide ('/' ∉ c)) && c != ['.'] && c != ['.', '.']

/-- A valid non-root slash-separated relative path (`io/fs.ValidPath` minus
the root `"."`): every component valid.  Such paths are nonempty, unrooted
and fixed by `Clean`. -/
def validRel (s : String) : Bool :=
  (splitSlash s.data).all validComp

/-! ### Helper lemmas -/

theorem compactLoop_eq_filter (keep : DirEntry → Bool) (acc : List DirEntry)
    (l : List DirEntry) : compactLoop keep acc l = acc.reverse ++ l.filter keep := by
  induction l generalizing acc with
  | nil => simp [compactLoop]
  | cons de des ih =>
    by_cases h : keep de = true <;>
      simp [compactLoop, h, ih, List.filter_cons]

theorem buildHidden_error_of_mem (l : List String) (h : "." ∈ l) (acc : List String) :
    buildHidden acc l = .error "ExcludePaths: cannot hide path \".\"" := by
  induction l generalizing acc with
  | nil => simp at h
  | cons p rest ih =>
    by_cases hp : p = "."
    · simp [buildHidden, hp]
    · have hr : "." ∈ rest := by
        rcases List.mem_cons.mp h with h1 | h1
        · exact absurd h1.symm hp
        · exact h1
      simp [buildHidden, hp, ih hr]

theorem buildHidden_ok_no_root (l : List String) (acc res : List String)
    (hacc : "." ∉ acc) (h : buildHidden acc l = .ok res) : "." ∉ res := by
  induction l generalizing acc with
  | nil =>
    simp [buildHidden] at h
    exact h ▸ hacc
  | cons p rest ih =>
    by_cases hp : p = "."
    · simp [buildHidden, hp] at h
    · simp only [buildHidden, if_neg hp] at h
      refine ih (p :: acc) ?_ h
      intro hmem
      rcases List.mem_cons.mp hmem with h1 | h1
      · exact hp h1.symm
      · exact hacc h1

theorem list_any_or {α : Type} (l : List α) (p q : α → Bool) :
    (l.any fun a => p a || q a) = (l.any p || l.any q) := by
  induction l with
  | nil => rfl
  | cons a as ih =>
    simp only [List.any_cons, ih]
    cases p a <;> cases q a <;> cases as.any p <;> cases as.any q <;> rfl

theorem contains_append_or (h1 h2 : List String) (s : String) :
    (h1 ++ h2).contains s = (h1.contains s || h2.contains s) := by
  induction h1 with
  | nil => rfl
  | cons a as ih =>
    simp only [List.cons_append, List.contains_cons, ih, Bool.or_assoc]

/-! ### Structure of `splitSlash`, `joinSlash`, `Clean` and `Dir`
on valid relative paths -/

theorem splitSlash_ne_nil (s : List Char) : splitSlash s ≠ [] := by
  cases s with
  | nil => simp [splitSlash]
  | cons c rest =>
    by_cases h : c = '/'
    · simp [splitSlash, h]
    · simp only [splitSlash, if_neg h]
      cases splitSlash rest <;> simp

theorem joinSlash_splitSlash (s : List Char) : joinSlash (splitSlash s) = s := by
  induction s with
  | nil => rfl
  | cons c rest ih =>
    by_cases h : c = '/'
    · subst h
      simp only [splitSlash, if_pos rfl]
      cases hr : splitSlash rest with
      | nil => exact absurd hr (splitSlash_ne_nil rest)
      | cons r rs =>
        simp only [joinSlash, List.nil_append]
        rw [← hr, ih]
    · simp only [splitSlash, if_neg h]
      cases hr : splitSlash rest with
      | nil => exact absurd hr (splitSlash_ne_nil rest)
      | cons r rs =>
        have hih : joinSlash (r :: rs) = rest := by rw [← hr]; exact ih
        cases rs with
        | nil =>
          simp only [joinSlash] at hih ⊢
          rw [hih]
        | cons r2 rs2 =>
          simp only [joinSlash] at hih ⊢
          rw [List.cons_append, hih]

theorem splitSlash_append (s t : List Char) :
    splitSlash (s ++ '/' :: t) = splitSlash s ++ splitSlash t := by
  induction s with
  | nil => simp [splitSlash]
  | cons c rest ih =>
    by_cases h : c = '/'
    · simp [splitSlash, h, ih]
    · cases hr : splitSlash rest with
      | nil => exact absurd hr (splitSlash_ne_nil rest)
      | cons r rs =>
        simp only [List.cons_append, splitSlash, if_neg h, List.append_eq, ih, hr]

theorem splitSlash_no_slash (c : List Char) (h : '/' ∉ c) : splitSlash c = [c] := by
  induction c with
  | nil => rfl
  | cons x xs ih =>
    have hx : x ≠ '/' := fun he => h (he ▸ List.mem_cons_self x xs)
    have hxs : '/' ∉ xs := fun hm => h (List.mem_cons_of_mem x hm)
    simp [splitSlash, hx, ih hxs]

theorem splitSlash_joinSlash (L : List (List Char)) (hL : L ≠ [])
    (h : ∀ c ∈ L, '/' ∉ c) : splitSlash (joinSlash L) = L := by
  induction L with
  | nil => exact absurd rfl hL
  | cons c rest ih =>
    cases rest with
    | nil =>
      simp only [joinSlash]
      exact splitSlash_no_slash c (h c (List.mem_cons_self c []))
    | cons d ds =>
      simp only [joinSlash]
      rw [splitSlash_append c (joinSlash (d :: ds)),
        splitSlash_no_slash c (h c (List.mem_cons_self c (d :: ds))),
        ih (by simp) (fun x hx => h x (List.mem_cons_of_mem c hx))]
      rfl

theorem joinSlash_append (L1 L2 : List (List Char)) (h1 : L1 ≠ []) (h2 : L2 ≠ []) :
    joinSlash (L1 ++ L2) = joinSlash L1 ++ '/' :: joinSlash L2 := by
  induction L1 with
  | nil => exact absurd rfl h1
  | cons c rest ih =>
    cases rest with
    | nil =>
      cases L2 with
      | nil => exact absurd rfl h2
      | cons d ds => simp [joinSlash]
    | cons d ds =>
      have hih : joinSlash ((d :: ds) ++ L2) = joinSlash (d :: ds) ++ '/' :: joinSlash L2 :=
        ih (by simp)
      calc joinSlash ((c :: d :: ds) ++ L2)
          = c ++ '/' :: joinSlash ((d :: ds) ++ L2) := rfl
        _ = c ++ '/' :: (joinSlash (d :: ds) ++ '/' :: joinSlash L2) := by rw [hih]
        _ = (c ++ '/' :: joinSlash (d :: ds)) ++ '/' :: joinSlash L2 := by simp
        _ = joinSlash (c :: d :: ds) ++ '/' :: joinSlash L2 := rfl

theorem validComp_props (c : List Char) (h : validComp c = true) :
    c ≠ [] ∧ '/' ∉ c ∧ c ≠ ['.'] ∧ c ≠ ['.', '.'] := by
  simp only [validComp, Bool.and_eq_true, bne_iff_ne, decide_eq_true_eq] at h
  exact ⟨h.1.1.1, h.1.1.2, h.1.2, h.2⟩

theorem cleanComponents_valid (rooted : Bool) (L : List (List Char))
    (h : ∀ c ∈ L, validComp c = true) (acc : List (List Char)) :
    cleanComponents rooted acc L = acc.reverse ++ L := by
  induction L generalizing acc with
  | nil => simp [cleanComponents]
  | cons c rest ih =>
    obtain ⟨hne, _, hdot, hdd⟩ := validComp_props c (h c (List.mem_cons_self c rest))
    have hrest : ∀ d ∈ rest, validComp d = true :=
      fun d hd => h d (List.mem_cons_of_mem c hd)
    have hcond : ¬(c = [] ∨ c = ['.']) := by
      rintro (h1 | h1)
      · exact hne h1
      · exact hdot h1
    simp only [cleanComponents, if_neg hcond, if_neg hdd, ih hrest]
    simp

theorem cleanComponents_valid_trailing (rooted : Bool) (L : List (List Char))
    (h : ∀ c ∈ L, validComp c = true) (acc : List (List Char)) :
    cleanComponents rooted acc (L ++ [[]]) = acc.reverse ++ L := by
  induction L generalizing acc with
  | nil => simp [cleanComponents]
  | cons c rest ih =>
    obtain ⟨hne, _, hdot, hdd⟩ := validComp_props c (h c (List.mem_cons_self c rest))
    have hrest : ∀ d ∈ rest, validComp d = true :=
      fun d hd => h d (List.mem_cons_of_mem c hd)
    have hcond : ¬(c = [] ∨ c = ['.']) := by
      rintro (h1 | h1)
      · exact hne h1
      · exact hdot h1
    simp only [List.cons_append, cleanComponents, if_neg hcond, if_neg hdd,
      List.append_eq]
    rw [ih hrest (c :: acc)]
    simp

theorem joinSlash_cons_structure (c : List Char) (rest : List (List Char)) :
    joinSlash (c :: rest) = c ++ (if rest.isEmpty then [] else '/' :: joinSlash rest) := by
  cases rest <;> simp [joinSlash]

theorem joinSlash_ne_nil (L : List (List Char)) (hL : L ≠ [])
    (h : ∀ c ∈ L, validComp c = true) : joinSlash L ≠ [] := by
  cases L with
  | nil => exact absurd rfl hL
  | cons c rest =>
    obtain ⟨hne, _, _, _⟩ := validComp_props c (h c (List.mem_cons_self c rest))
    rw [joinSlash_cons_structure]
    simp [hne]

theorem joinSlash_head_ne_slash (L : List (List Char)) (hL : L ≠ [])
    (h : ∀ c ∈ L, validComp c = true) : (joinSlash L).head? ≠ some '/' := by
  cases L with
  | nil => exact absurd rfl hL
  | cons c rest =>
    obtain ⟨hne, hsl, _, _⟩ := validComp_props c (h c (List.mem_cons_self c rest))
    rw [joinSlash_cons_structure]
    cases c with
    | nil => exact absurd rfl hne
    | cons ch cs =>
      have : ch ≠ '/' := fun he => hsl (he ▸ List.mem_cons_self ch cs)
      simp [this]

theorem cleanList_joinSlash (L : List (List Char)) (hL : L ≠ [])
    (h : ∀ c ∈ L, validComp c = true) : cleanList (joinSlash L) = joinSlash L := by
  have hslash : ∀ c ∈ L, '/' ∉ c := fun c hc => (validComp_props c (h c hc)).2.1
  have hne := joinSlash_ne_nil L hL h
  have hhead := joinSlash_head_ne_slash L hL h
  have hd : decide ((joinSlash L).head? = some '/') = false := decide_eq_false hhead
  have hcc : cleanComponents false [] (splitSlash (joinSlash L)) = L := by
    rw [splitSlash_joinSlash L hL hslash, cleanComponents_valid false L h []]
    simp
  simp only [cleanList, if_neg hne, hd, hcc, Bool.false_eq_true, if_false, if_neg hL]

theorem joinSlash_ne_terminal (L : List (List Char)) (hL : L ≠ [])
    (h : ∀ c ∈ L, validComp c = true) :
    joinSlash L ≠ ['.'] ∧ joinSlash L ≠ ['/'] := by
  cases L with
  | nil => exact absurd rfl hL
  | cons c rest =>
    obtain ⟨hne, hsl, hdot, _⟩ := validComp_props c (h c (List.mem_cons_self c rest))
    cases rest with
    | nil =>
      simp only [joinSlash]
      refine ⟨hdot, ?_⟩
      intro he
      exact hsl (he ▸ List.mem_cons_self '/' [])
    | cons d ds =>
      have hpos : 0 < c.length := List.length_pos.mpr hne
      simp only [joinSlash]
      constructor
      · intro he
        have hlen := congrArg List.length he
        simp [List.length_append] at hlen
        omega
      · intro he
        have hlen := congrArg List.length he
        simp [List.length_append] at hlen
        omega

theorem dropWhile_until_slash (a b : List Char) (ha : '/' ∉ a) :
    (a ++ '/' :: b).dropWhile (fun c => c ≠ '/') = '/' :: b := by
  induction a with
  | nil => simp [List.dropWhile_cons]
  | cons x xs ih =>
    have hx : x ≠ '/' := fun he => ha (he ▸ List.mem_cons_self x xs)
    have hxs : '/' ∉ xs := fun hm => ha (List.mem_cons_of_mem x hm)
    simp only [List.cons_append, List.dropWhile_cons, decide_eq_true hx, if_true]
    exact ih hxs

theorem dirList_single (c : List Char) (h : '/' ∉ c) : dirList c = ['.'] := by
  have hnil : c.reverse.dropWhile (fun x => decide (x ≠ '/')) = [] := by
    rw [List.dropWhile_eq_nil_iff]
    intro x hx
    exact decide_eq_true (fun he => h (he ▸ (List.mem_reverse.mp hx)))
  unfold dirList
  rw [hnil]
  rfl

theorem dirList_append (L : List (List Char)) (c : List Char) (hL : L ≠ [])
    (hv : ∀ d ∈ L, validComp d = true) (hc : '/' ∉ c) :
    dirList (joinSlash (L ++ [c])) = joinSlash L := by
  have hjoin : joinSlash (L ++ [c]) = joinSlash L ++ '/' :: c :=
    joinSlash_append L [c] hL (by simp)
  have hslash : ∀ d ∈ L, '/' ∉ d := fun d hd => (validComp_props d (hv d hd)).2.1
  have hne := joinSlash_ne_nil L hL hv
  have hhead := joinSlash_head_ne_slash L hL hv
  have hdrop : ((joinSlash L ++ '/' :: c).reverse.dropWhile
      (fun x => decide (x ≠ '/'))).reverse = joinSlash L ++ ['/'] := by
    rw [List.reverse_append, List.reverse_cons, List.append_assoc,
      List.singleton_append]
    rw [dropWhile_until_slash c.reverse ((joinSlash L).reverse)
      (fun hm => hc (List.mem_reverse.mp hm))]
    simp
  unfold dirList
  rw [hjoin, hdrop]
  have hne2 : joinSlash L ++ ['/'] ≠ [] := by simp
  have hhead2 : (joinSlash L ++ ['/']).head? ≠ some '/' := by
    cases hj : joinSlash L with
    | nil => exact absurd hj hne
    | cons x xs =>
      have hx := hhead
      rw [hj] at hx
      simpa using hx
  have hd2 : decide ((joinSlash L ++ ['/']).head? = some '/') = false :=
    decide_eq_false hhead2
  have hsplit : splitSlash (joinSlash L ++ ['/']) = L ++ [[]] := by
    have h1 : joinSlash L ++ ['/'] = joinSlash L ++ '/' :: [] := rfl
    rw [h1, splitSlash_append, splitSlash_joinSlash L hL hslash]
    rfl
  have hcc : cleanComponents false [] (splitSlash (joinSlash L ++ ['/'])) = L := by
    rw [hsplit, cleanComponents_valid_trailing false L hv []]
    simp
  simp only [cleanList, if_neg hne2, hd2, hcc, Bool.false_eq_true, if_false, if_neg hL]

/-- The expected tail of `pathPrefixes` on a valid path whose components,
in reverse order, are the argument: each successive parent, then `"."`. -/
def chainRev : List (List Char) → List (List Char)
  | [] => [['.']]
  | [_] => [['.']]
  | _ :: rest => joinSlash rest.reverse :: chainRev rest

theorem chainRev_cons_cons (a b : List Char) (M : List (List Char)) :
    chainRev (a :: b :: M) = joinSlash (b :: M).reverse :: chainRev (b :: M) := by
  rfl

theorem joinSlash_length (L : List (List Char)) (hL : L ≠ [])
    (h : ∀ c ∈ L, validComp c = true) : L.length ≤ (joinSlash L).length + 1 := by
  induction L with
  | nil => exact absurd rfl hL
  | cons c rest ih =>
    cases rest with
    | nil => simp
    | cons d ds =>
      have hrest : ∀ x ∈ (d :: ds), validComp x = true :=
        fun x hx => h x (List.mem_cons_of_mem c hx)
      have := ih (by simp) hrest
      simp only [joinSlash, List.length_cons, List.length_append] at *
      omega

theorem prefixesLoop_valid (L : List (List Char)) (hL : L ≠ [])
    (hv : ∀ c ∈ L, validComp c = true) :
    ∀ fuel, L.length ≤ fuel → prefixesLoop fuel (joinSlash L) = chainRev L.reverse := by
  induction L using List.reverseRecOn with
  | nil => exact absurd rfl hL
  | append_singleton L' c ih =>
    intro fuel hfuel
    have hc : validComp c = true := hv c (by simp)
    have hcs : '/' ∉ c := (validComp_props c hc).2.1
    cases L' with
    | nil =>
      simp only [List.nil_append, List.length_cons, List.length_nil] at hfuel
      obtain ⟨f, rfl⟩ : ∃ f, fuel = f + 1 := ⟨fuel - 1, by omega⟩
      simp only [List.nil_append, joinSlash, prefixesLoop]
      rw [dirList_single c hcs]
      simp [chainRev]
    | cons d ds =>
      have hL' : (d :: ds) ≠ [] := by simp
      have hv' : ∀ x ∈ (d :: ds), validComp x = true :=
        fun x hx => hv x (List.mem_append.mpr (Or.inl hx))
      have hlen : ((d :: ds) ++ [c]).length = (d :: ds).length + 1 := by simp
      obtain ⟨f, rfl⟩ : ∃ f, fuel = f + 1 := by
        refine ⟨fuel - 1, ?_⟩
        rw [hlen] at hfuel
        omega
      have hf : (d :: ds).length ≤ f := by
        rw [hlen] at hfuel
        omega
      simp only [prefixesLoop]
      rw [dirList_append (d :: ds) c hL' hv' hcs]
      have hterm := joinSlash_ne_terminal (d :: ds) hL' hv'
      rw [if_neg (by simp [hterm.1, hterm.2])]
      rw [ih hL' hv' f hf]
      have hrev : ((d :: ds) ++ [c]).reverse = c :: (d :: ds).reverse := by simp
      rw [hrev]
      cases hdr : (d :: ds).reverse with
      | nil => exact absurd (by simpa using congrArg List.reverse hdr) hL'
      | cons y ys =>
        rw [chainRev_cons_cons, ← hdr, List.reverse_reverse]

theorem mem_chainRev (LP : List (List Char)) (hLP : LP ≠ [])
    (d : List Char) (M : List (List Char)) :
    joinSlash LP ∈ chainRev ((d :: M) ++ LP.reverse) := by
  induction M generalizing d with
  | nil =>
    cases hr : LP.reverse with
    | nil => exact absurd (by simpa using congrArg List.reverse hr) hLP
    | cons y ys =>
      have h1 : [d] ++ (y :: ys) = d :: y :: ys := rfl
      rw [h1, chainRev_cons_cons, ← hr, List.reverse_reverse]
      exact List.mem_cons_self _ _
  | cons e es ih =>
    have h1 : (d :: e :: es) ++ LP.reverse = d :: e :: (es ++ LP.reverse) := rfl
    rw [h1, chainRev_cons_cons]
    have hmem := ih e
    rw [List.cons_append] at hmem
    exact List.mem_cons_of_mem _ hmem

theorem validRel_comps (s : String) (h : validRel s = true) :
    splitSlash s.data ≠ [] ∧ ∀ c ∈ splitSlash s.data, validComp c = true := by
  simp only [validRel, List.all_eq_true] at h
  exact ⟨splitSlash_ne_nil s.data, h⟩

/-- The pivotal containment-closure fact: if `hide` accepts a valid path
`name`, then the ancestor chain of any valid path nested beneath it contains
`name`, so the hidden-chain test accepts the nested path. -/
theorem hidden_closure (hide : String → Bool) (name sub : String)
    (hn : validRel name = true) (hs : validRel sub = true)
    (hhide : hide name = true) :
    (pathPrefixes (name ++ "/" ++ sub)).any hide = true := by
  obtain ⟨hnne, hnv⟩ := validRel_comps name hn
  obtain ⟨hsne, hsv⟩ := validRel_comps sub hs
  set Ln := splitSlash name.data with hLn
  set Ls := splitSlash sub.data with hLs
  have hdata : (name ++ "/" ++ sub).data = name.data ++ '/' :: sub.data := by
    rw [String.data_append, String.data_append]
    simp
  have hsplit : splitSlash (name ++ "/" ++ sub).data = Ln ++ Ls := by
    rw [hdata, splitSlash_append]
  have hall : ∀ c ∈ Ln ++ Ls, validComp c = true := by
    intro c hc
    rcases List.mem_append.mp hc with h1 | h1
    · exact hnv c h1
    · exact hsv c h1
  have hLne : Ln ++ Ls ≠ [] := by
    intro he
    exact hnne (List.append_eq_nil.mp he).1
  have hjoin : joinSlash (Ln ++ Ls) = (name ++ "/" ++ sub).data := by
    rw [joinSlash_append Ln Ls hnne hsne, hLn, hLs,
      joinSlash_splitSlash, joinSlash_splitSlash, hdata]
  have hclean : cleanList (name ++ "/" ++ sub).data = (name ++ "/" ++ sub).data := by
    rw [← hjoin]
    exact cleanList_joinSlash (Ln ++ Ls) hLne hall
  have hmem : name.data ∈ pathPrefixesList (name ++ "/" ++ sub).data := by
    simp only [pathPrefixesList, hclean]
    rw [← hjoin]
    have hfuel : (Ln ++ Ls).length ≤ (joinSlash (Ln ++ Ls)).length + 1 :=
      joinSlash_length (Ln ++ Ls) hLne hall
    rw [prefixesLoop_valid (Ln ++ Ls) hLne hall _ hfuel]
    have hnd : name.data = joinSlash Ln := (joinSlash_splitSlash name.data).symm
    rw [hnd, List.reverse_append]
    cases hlr : Ls.reverse with
    | nil => exact absurd (by simpa using congrArg List.reverse hlr) hsne
    | cons d M =>
      exact List.mem_cons_of_mem _ (mem_chainRev Ln hnne d M)
  rw [List.any_eq_true]
  refine ⟨name, ?_, hhide⟩
  simp only [pathPrefixes, List.mem_map]
  exact ⟨name.data, hmem, String.ext rfl⟩

/-! ### Claim theorems -/

/-- C7: `pathPrefixes "a/b/c"` yields exactly `["a/b/c", "a/b", "a", "."]` —
the path itself followed by each successive parent directory up to and
including the root. -/
theorem pathPrefixes_abc : pathPrefixes "a/b/c" = ["a/b/c", "a/b", "a", "."] := by
  decide

/-- C6 counterexample: `pathPrefixes "."` is not the one-element sequence
`["."]` claimed by the spec: the loop appends `Dir(".") = "."` once more
before its terminal check. -/
theorem pathPrefixes_root_ne : pathPrefixes "." ≠ ["."] := by
  decide

/-- C6 amended: the ancestor-path derivation applied to the root path yields
the two-element sequence `[".", "."]` (the root, duplicated by the loop's
append-then-check structure). -/
theorem pathPrefixes_root : pathPrefixes "." = [".", "."] := by
  decide

/-- C2: for every directory handle and count, when the underlying `ReadDir`
succeeds with entries `des`, the wrapper returns exactly the subsequence of
`des` whose full path (the remembered directory path joined with the entry
name, normalized) is not hidden, in the underlying order, with no entries
introduced, renamed, duplicated or re-fetched — and likewise for the
predicate-based variant with its `Clean(path + "/" + name)` join. -/
theorem readDir_filters (hidden hide : String → Bool) (path : String)
    (uRD : Int → List DirEntry × Option GoError) (n : Int) (des : List DirEntry)
    (h : uRD n = (des, none)) :
    excludePathsDir.ReadDir hidden path uRD n =
      (des.filter (fun de => !(hidden (filepathJoin path de.name))), none) ∧
    (excludePathsDir.ReadDir hidden path uRD n).1.Sublist des ∧
    excludeFnDir.ReadDir hide path uRD n =
      (des.filter (fun de => !(hide (filepathClean (path ++ "/" ++ de.name)))), none) ∧
    (excludeFnDir.ReadDir hide path uRD n).1.Sublist des := by
  refine ⟨?_, ?_, ?_, ?_⟩
  · simp [excludePathsDir.ReadDir, h, compactLoop_eq_filter]
  · simp only [excludePathsDir.ReadDir, h, compactLoop_eq_filter, List.reverse_nil,
      List.nil_append]
    exact List.filter_sublist des
  · simp [excludeFnDir.ReadDir, h, compactLoop_eq_filter]
  · simp only [excludeFnDir.ReadDir, h, compactLoop_eq_filter, List.reverse_nil,
      List.nil_append]
    exact List.filter_sublist des

/-- C2 witness: a concrete directory listing of `["b", "c"]` under directory
`"a"` with `"a/b"` hidden keeps exactly `"c"`. -/
theorem readDir_filters_witness :
    excludePathsDir.ReadDir (fun s => s == "a/b") "a"
      (fun _ => ([⟨"b", false⟩, ⟨"c", false⟩], none)) 0 = ([⟨"c", false⟩], none) := by
  have h := readDir_filters (fun s => s == "a/b") (fun s => s == "a/b") "a"
    (fun _ => ([⟨"b", false⟩, ⟨"c", false⟩], none)) 0
    [⟨"b", false⟩, ⟨"c", false⟩] rfl
  rw [h.1]
  decide

/-- C10: whenever the underlying handle's `ReadDir` returns a non-nil error,
both wrappers return a nil entry slice together with that same error — any
entries returned alongside the error are discarded. -/
theorem readDir_error_discards (hidden hide : String → Bool) (path : String)
    (uRD : Int → List DirEntry × Option GoError) (n : Int) (des : List DirEntry)
    (e : GoError) (h : uRD n = (des, some e)) :
    excludePathsDir.ReadDir hidden path uRD n = ([], some e) ∧
    excludeFnDir.ReadDir hide path uRD n = ([], some e) := by
  constructor <;> simp [excludePathsDir.ReadDir, excludeFnDir.ReadDir, h]

/-- C10 witness: an underlying listing that returns one entry together with
an error is turned into a nil slice plus that error. -/
theorem readDir_error_discards_witness :
    excludePathsDir.ReadDir (fun _ => false) "a"
      (fun _ => ([⟨"b", false⟩], some (.other 7))) 1 = ([], some (.other 7)) :=
  (readDir_error_discards (fun _ => false) (fun _ => false) "a"
    (fun _ => ([⟨"b", false⟩], some (.other 7))) 1 [⟨"b", false⟩] (.other 7) rfl).1

/-- C9: for a path whose ancestor chain is not hidden, any error produced by
the underlying layer — from `Open`, from `Stat`, or from `ReadDir` — is
returned to the caller unchanged; the wrapper substitutes errors only for
excluded paths. -/
theorem errors_pass_through {F : Type} (hidden : String → Bool)
    (uOpen : String → Except GoError F) (uStat : F → Except GoError FileInfo)
    (uRDF : F → Bool) (name : String)
    (hchain : (pathPrefixes name).any hidden = false) :
    (∀ e, uOpen name = .error e →
      excludePathsFS.Open hidden uOpen uStat uRDF name = .error e) ∧
    (∀ f e, uOpen name = .ok f → uStat f = .error e →
      excludePathsFS.Open hidden uOpen uStat uRDF name = .error e) ∧
    (∀ (path : String) (uRD : Int → List DirEntry × Option GoError) (n : Int)
        (des : List DirEntry) (e : GoError), uRD n = (des, some e) →
      excludePathsDir.ReadDir hidden path uRD n = ([], some e)) := by
  refine ⟨?_, ?_, ?_⟩
  · intro e he
    simp [excludePathsFS.Open, hchain, he]
  · intro f e hf he
    simp [excludePathsFS.Open, hchain, hf, he]
  · intro path uRD n des e h
    simp [excludePathsDir.ReadDir, h]

/-- C9 witness: with nothing hidden, an underlying open error `other 3` on
`"a"` comes back unchanged. -/
theorem errors_pass_through_witness :
    excludePathsFS.Open (F := Unit) (fun _ => false)
      (fun _ => .error (.other 3)) (fun _ => .ok ⟨false⟩) (fun _ => false) "a" =
      .error (.other 3) :=
  (errors_pass_through (fun _ => false) (fun _ => .error (.other 3))
    (fun _ => .ok ⟨false⟩) (fun _ => false) "a" (by decide)).1 (.other 3) rfl

/-- C4: for a path whose ancestor chain is not hidden and which the
underlying storage opens and stats successfully, the wrapper's open
succeeds; the returned handle embeds exactly the underlying handle (so its
content is the underlying content), and for a non-directory entry the
underlying handle is returned unchanged, undecorated. -/
theorem open_visible_delegates {F : Type} (hidden : String → Bool)
    (uOpen : String → Except GoError F) (uStat : F → Except GoError FileInfo)
    (uRDF : F → Bool) (name : String) (f : F) (fi : FileInfo)
    (hchain : (pathPrefixes name).any hidden = false)
    (hopen : uOpen name = .ok f) (hstat : uStat f = .ok fi) :
    excludePathsFS.Open hidden uOpen uStat uRDF name =
      .ok (if fi.isDir && uRDF f then .dir name f else .plain f) ∧
    (fi.isDir = false →
      excludePathsFS.Open hidden uOpen uStat uRDF name = .ok (.plain f)) ∧
    (excludePathsFS.Open hidden uOpen uStat uRDF name).map WFile.raw = .ok f := by
  refine ⟨?_, ?_, ?_⟩
  · simp only [excludePathsFS.Open, hchain, hopen, hstat, Bool.false_eq_true,
      if_false]
    split <;> simp_all
  · intro hdir
    simp [excludePathsFS.Open, hchain, hopen, hstat, hdir]
  · by_cases hd : fi.isDir && uRDF f <;>
      simp [excludePathsFS.Open, hchain, hopen, hstat, hd, WFile.raw, Except.map]

/-- C4 witness: with `"b"` hidden, opening the present plain file `"a"`
returns the underlying handle unchanged. -/
theorem open_visible_delegates_witness :
    excludePathsFS.Open (F := Nat) (fun s => s == "b")
      (fun _ => .ok 5) (fun _ => .ok ⟨false⟩) (fun _ => false) "a" =
      .ok (.plain 5) :=
  (open_visible_delegates (fun s => s == "b") (fun _ => .ok 5)
    (fun _ => .ok ⟨false⟩) (fun _ => false) "a" 5 ⟨false⟩
    (by decide) rfl rfl).2.1 rfl

/-- C5: constructing a wrapper with the root path `"."` in the hide list
(`ExcludePaths`, both variants) or with a predicate matching `"."`
(`ExcludeFn`) fails synchronously at construction with the configuration
panic, and no wrapper instance is produced. -/
theorem construct_root_rejected (hide : List String) (hfn : String → Bool)
    (hmem : "." ∈ hide) (hroot : hfn "." = true) :
    ExcludePaths hide = .error "ExcludePaths: cannot hide path \".\"" ∧
    ExcludePathsFn hide = .error "ExcludePaths: cannot hide path \".\"" ∧
    ExcludeFn hfn = .error "ExcludeFn: cannot hide path \".\"" := by
  refine ⟨?_, ?_, ?_⟩
  · simp [ExcludePaths, buildHidden_error_of_mem hide hmem]
  · simp [ExcludePathsFn, buildHidden_error_of_mem hide hmem]
  · simp [ExcludeFn, hroot]

/-- C5 witness: hiding the list `["a", "."]`, or the predicate matching
exactly `"."`, is rejected at construction. -/
theorem construct_root_rejected_witness :
    ExcludePaths ["a", "."] = .error "ExcludePaths: cannot hide path \".\"" ∧
    ExcludeFn (fun s => s == ".") = .error "ExcludeFn: cannot hide path \".\"" :=
  ⟨(construct_root_rejected ["a", "."] (fun s => s == ".")
      (by decide) (by decide)).1,
   (construct_root_rejected ["a", "."] (fun s => s == ".")
      (by decide) (by decide)).2.2⟩

/-- C3: the static path-set implementation and the predicate-based
implementation applied to exact-match set membership are behaviorally equal:
the two constructors agree on every hide list (producing the same membership
predicate, or the same construction panic), the two `Open`s agree on every
underlying filesystem and name, and the two `ReadDir`s agree on every
directory handle with a nonempty remembered path (every path a conforming
`fs.FS` can open) and every underlying listing result. -/
theorem paths_fn_equiv (hide : List String) :
    ExcludePaths hide = ExcludePathsFn hide ∧
    (∀ (F : Type) (hid : String → Bool) (uOpen : String → Except GoError F)
        (uStat : F → Except GoError FileInfo) (uRDF : F → Bool) (name : String),
      excludePathsFS.Open hid uOpen uStat uRDF name =
        excludeFnFS.Open hid uOpen uStat uRDF name) ∧
    (∀ (hid : String → Bool) (path : String), path ≠ "" →
      ∀ (uRD : Int → List DirEntry × Option GoError) (n : Int),
        excludePathsDir.ReadDir hid path uRD n =
          excludeFnDir.ReadDir hid path uRD n) := by
  refine ⟨?_, ?_, ?_⟩
  · cases hb : buildHidden [] hide with
    | error msg => simp [ExcludePaths, ExcludePathsFn, hb]
    | ok l =>
      have hnr : "." ∉ l := buildHidden_ok_no_root hide [] l (by simp) hb
      simp [ExcludePaths, ExcludePathsFn, hb, ExcludeFn, hnr]
  · intro F hid uOpen uStat uRDF name
    rfl
  · intro hid path hpath uRD n
    have hjoin : ∀ nm : String,
        filepathJoin path nm = filepathClean (path ++ "/" ++ nm) := by
      intro nm
      simp [filepathJoin, hpath]
    cases hr : uRD n with
    | mk des oe =>
      cases oe with
      | none =>
        have hk : (fun de : DirEntry => !(hid (filepathJoin path de.name))) =
            (fun de : DirEntry => !(hid (filepathClean (path ++ "/" ++ de.name)))) := by
          funext de
          rw [hjoin de.name]
        simp only [excludePathsDir.ReadDir, excludeFnDir.ReadDir, hr, hk]
      | some e =>
        simp [excludePathsDir.ReadDir, excludeFnDir.ReadDir, hr]

/-- C1: when the exclusion predicate holds on any element of a path's
ancestor chain, `Open` fails with an `fs.PathError` wrapping
`fs.ErrNotExist` — the same error kind (`errors.Is(err, fs.ErrNotExist)`)
the underlying storage produces for an absent path — in both
implementations; and consequently any valid path nested at any depth
beneath a hidden valid path is likewise excluded. -/
theorem open_hidden_notExist {F : Type} (hide : String → Bool)
    (uOpen : String → Except GoError F) (uStat : F → Except GoError FileInfo)
    (uRDF : F → Bool) (name : String) :
    ((pathPrefixes name).any hide = true →
      excludePathsFS.Open hide uOpen uStat uRDF name =
        .error (.pathError "open" name .errNotExist) ∧
      excludeFnFS.Open hide uOpen uStat uRDF name =
        .error (.pathError "open" name .errNotExist) ∧
      (GoError.pathError "open" name .errNotExist).isNotExist = true) ∧
    (∀ sub : String, validRel name = true → validRel sub = true →
      hide name = true →
      excludePathsFS.Open hide uOpen uStat uRDF (name ++ "/" ++ sub) =
        .error (.pathError "open" (name ++ "/" ++ sub) .errNotExist)) := by
  constructor
  · intro h
    refine ⟨?_, ?_, rfl⟩ <;> simp [excludePathsFS.Open, excludeFnFS.Open, h]
  · intro sub hn hs hh
    have h := hidden_closure hide name sub hn hs hh
    simp [excludePathsFS.Open, h]

/-- C1 witness: with `"a"` hidden, opening the nested path `"a/b/c"`
(written as the join of `"a"` and `"b/c"`) fails with the not-found error. -/
theorem open_hidden_notExist_witness :
    excludePathsFS.Open (F := Unit) (fun s => s == "a")
      (fun _ => .ok ()) (fun _ => .ok ⟨true⟩) (fun _ => true) ("a" ++ "/" ++ "b/c") =
      .error (.pathError "open" ("a" ++ "/" ++ "b/c") .errNotExist) :=
  (open_hidden_notExist (fun s => s == "a") (fun _ => .ok ()) (fun _ => .ok ⟨true⟩)
    (fun _ => true) "a").2 "b/c" (by decide) (by decide) (by decide)

/-- C8: wrapping an exclusion wrapper in a second one behaves as a single
wrapper over the union of the two hide sets (here root-free, as the
constructors require): the doubly wrapped `Open` — its double decoration
collapsed to its behavioural content — agrees with the union wrapper's
`Open` on every name, and the doubly wrapped `ReadDir` agrees with the
union wrapper's `ReadDir` on every directory path and underlying listing. -/
theorem compose_union {F : Type} (h1 h2 : List String)
    (hr1 : "." ∉ h1) (hr2 : "." ∉ h2)
    (uOpen : String → Except GoError F) (uStat : F → Except GoError FileInfo)
    (uRDF : F → Bool) :
    (∀ name : String,
      (excludePathsFS.Open (fun s => h2.contains s)
          (excludePathsFS.Open (fun s => h1.contains s) uOpen uStat uRDF)
          (WFile.statW uStat) (WFile.isRDFW uRDF) name).map WFile.flatten =
        excludePathsFS.Open (fun s => (h1 ++ h2).contains s) uOpen uStat uRDF name) ∧
    (∀ (path : String) (uRD : Int → List DirEntry × Option GoError) (n : Int),
      excludePathsDir.ReadDir (fun s => h2.contains s) path
          (excludePathsDir.ReadDir (fun s => h1.contains s) path uRD) n =
        excludePathsDir.ReadDir (fun s => (h1 ++ h2).contains s) path uRD n) := by
  have hU : ∀ nm : String, (pathPrefixes nm).any (fun s => (h1 ++ h2).contains s) =
      ((pathPrefixes nm).any (fun s => h1.contains s) ||
       (pathPrefixes nm).any (fun s => h2.contains s)) := by
    intro nm
    have he : (fun s => (h1 ++ h2).contains s) =
        (fun s => h1.contains s || h2.contains s) := by
      funext s
      exact contains_append_or h1 h2 s
    rw [he, list_any_or]
  constructor
  · intro name
    by_cases hA : (pathPrefixes name).any (fun s => h2.contains s) = true
    · have hu : (pathPrefixes name).any (fun s => (h1 ++ h2).contains s) = true := by
        rw [hU, hA, Bool.or_true]
      simp only [excludePathsFS.Open, hA, hu, eq_self_iff_true, if_true, Except.map]
    · have hA' : (pathPrefixes name).any (fun s => h2.contains s) = false :=
        Bool.eq_false_iff.mpr hA
      by_cases hB : (pathPrefixes name).any (fun s => h1.contains s) = true
      · have hu : (pathPrefixes name).any (fun s => (h1 ++ h2).contains s) = true := by
          rw [hU, hB, Bool.true_or]
        simp only [excludePathsFS.Open, hA', hB, hu, eq_self_iff_true, if_true,
          Bool.false_eq_true, if_false, Except.map]
      · have hB' : (pathPrefixes name).any (fun s => h1.contains s) = false :=
          Bool.eq_false_iff.mpr hB
        have hu : (pathPrefixes name).any (fun s => (h1 ++ h2).contains s) = false := by
          rw [hU, hA', hB', Bool.or_false]
        cases ho : uOpen name with
        | error e =>
          simp only [excludePathsFS.Open, hA', hB', hu, Bool.false_eq_true, if_false,
            ho, Except.map]
        | ok f =>
          cases hs : uStat f with
          | error e =>
            simp only [excludePathsFS.Open, hA', hB', hu, Bool.false_eq_true, if_false,
              ho, hs, Except.map, WFile.statW, WFile.raw]
          | ok fi =>
            by_cases hd : fi.isDir = true
            · by_cases hrd : uRDF f = true
              · simp only [excludePathsFS.Open, hA', hB', hu, Bool.false_eq_true,
                  if_false, ho, hs, hd, hrd, Bool.true_and, eq_self_iff_true, if_true,
                  WFile.statW, WFile.isRDFW, WFile.raw, WFile.flatten, Except.map]
              · have hrd' : uRDF f = false := Bool.eq_false_iff.mpr hrd
                simp only [excludePathsFS.Open, hA', hB', hu, Bool.false_eq_true,
                  if_false, ho, hs, hd, hrd', Bool.true_and, Bool.and_false,
                  WFile.statW, WFile.isRDFW, WFile.raw, WFile.flatten, Except.map]
            · have hd' : fi.isDir = false := Bool.eq_false_iff.mpr hd
              simp only [excludePathsFS.Open, hA', hB', hu, Bool.false_eq_true,
                if_false, ho, hs, hd', Bool.false_and,
                WFile.statW, WFile.isRDFW, WFile.raw, WFile.flatten, Except.map]
  · intro path uRD n
    cases hr : uRD n with
    | mk des oe =>
      cases oe with
      | some e => simp [excludePathsDir.ReadDir, hr]
      | none =>
        simp only [excludePathsDir.ReadDir, hr, compactLoop_eq_filter,
          List.reverse_nil, List.nil_append]
        rw [List.filter_filter]
        refine congrArg (fun p => (p, (none : Option GoError))) ?_
        refine List.filter_congr ?_
        intro de _
        rw [contains_append_or]
        cases h1.contains (filepathJoin path de.name) <;>
          cases h2.contains (filepathJoin path de.name) <;> rfl

/-- C8 witness: hiding `["a"]` then `["b"]` and opening `"b"` behaves as the
single wrapper over the union `["a"] ++ ["b"]`. -/
theorem compose_union_witness :
    (excludePathsFS.Open (fun s => (["b"] : List String).contains s)
        (excludePathsFS.Open (fun s => (["a"] : List String).contains s)
          (fun _ => Except.ok (0 : Nat)) (fun _ => Except.ok ⟨false⟩) (fun _ => false))
        (WFile.statW (fun _ => Except.ok ⟨false⟩)) (WFile.isRDFW (fun _ => false))
        "b").map WFile.flatten =
      excludePathsFS.Open (fun s => ((["a"] ++ ["b"]) : List String).contains s)
        (fun _ => Except.ok (0 : Nat)) (fun _ => Except.ok ⟨false⟩) (fun _ => false) "b" :=
  (compose_union ["a"] ["b"] (by decide) (by decide)
    (fun _ => Except.ok (0 : Nat)) (fun _ => Except.ok ⟨false⟩) (fun _ => false)).1 "b"

/-- C3 witness: with `"a/b"` hidden, listing directory `"a"` produces the
same result through both implementations. -/
theorem paths_fn_equiv_witness :
    excludePathsDir.ReadDir (fun s => s == "a/b") "a"
      (fun _ => ([⟨"b", false⟩, ⟨"c", false⟩], none)) 0 =
    excludeFnDir.ReadDir (fun s => s == "a/b") "a"
      (fun _ => ([⟨"b", false⟩, ⟨"c", false⟩], none)) 0 :=
  (paths_fn_equiv []).2.2 (fun s => s == "a/b") "a" (by decide)
    (fun _ => ([⟨"b", false⟩, ⟨"c", false⟩], none)) 0

end Filterfs
